import Mathlib

/-!
Verification of the pmem-based word-frequency counter (`freq_pmem_cpp.cpp`).

The program keeps a fixed array of `NBUCKETS` buckets, each a singly linked
chain of durable entries `{next, word, mutex, count}`.  `freq::hash` maps a
NUL-terminated word to a bucket index, `freq::count` bumps (or creates) the
entry for a word, and `freq::count_all_words` splits an input file into
maximal alphabetic runs (capped by the `MAXWORD` buffer) and counts each one.

Shallow embedding used below:
- a byte is a `Nat` in `[0, 256)` (the value returned by `getc`);
- a NUL-terminated C string is the `List Nat` of its bytes before the
  terminator (the words handled here are alphabetic, hence NUL-free, so
  `strcmp` equality is list equality);
- the persistent-pointer chain of a bucket is a `List entry`; the bucket
  array is a function `Nat → List entry` read at indices below `NBUCKETS`;
- the locks (`nvobj::shared_mutex`, `nvobj::mutex`) are concurrency metadata
  with no effect on the sequential semantics of one call, and a pmem
  transaction is a single atomic state update, so `freq::count` is a function
  from table states to table states;
- C `unsigned` arithmetic is `Nat` arithmetic with an explicit `% U32`
  wherever an intermediate value is not already below `2 ^ 32`.
-/

namespace Freq

/-- `const int NBUCKETS = 10007`: the fixed number of buckets. -/
def NBUCKETS : Nat := 10007

/-- `static const int MAXWORD = 8192`: the size of the stack word buffer in
`freq::count_all_words`. -/
def MAXWORD : Nat := 8192

/-- The modulus of C `unsigned` (32-bit) arithmetic. -/
def U32 : Nat := 2 ^ 32

/-- C-locale `isalpha` on a `getc` byte: ASCII letters only. -/
def isalpha (c : Nat) : Bool := (65 ≤ c && c ≤ 90) || (97 ≤ c && c ≤ 122)

/-- One durable table entry (`struct entry`): the word bytes
(`persistent_ptr<char> word`) and the counter (`p<int> count`).  The
`next` pointer is represented by the position in the chain list; the
per-entry mutex is concurrency metadata and is not part of the state. -/
structure entry where
  word : List Nat
  count : Int
deriving DecidableEq

/-- The bucket array (`bucket[NBUCKETS]`): each bucket's `entries` chain,
indexed by bucket number.  Only indices below `NBUCKETS` are ever used. -/
abbrev buckets := Nat → List entry

/-- The loop body of `freq::hash`
(`while (*s) { len++; h ^= (*s << (len % 3)) + (*(s-1) << (len % 3 + 7)); s++; }`
followed by `h ^= len; return h % NBUCKETS;`).  `h` is the accumulator,
`prev` the byte at `s - 1`, `len` the C `unsigned len` before the next
increment, and the list holds the bytes still to be scanned. -/
def hashAux : Nat → Nat → Nat → List Nat → Nat
  | h, _, len, [] => (h ^^^ len) % NBUCKETS
  | h, prev, len, c :: cs =>
      hashAux
        (h ^^^ (((c <<< ((len + 1) % U32 % 3)) +
          (prev <<< ((len + 1) % U32 % 3 + 7))) % U32))
        c ((len + 1) % U32) cs

/-- `freq::hash`: seed `h = NBUCKETS ^ (*s++ << 2)`, run the mixing loop,
XOR in `len`, reduce modulo `NBUCKETS`.  On the empty word the C code would
scan past the terminator (undefined behaviour; `count_all_words` never
passes an empty word), so the `[]` case is given the degenerate value of a
word whose byte after the terminator happens to be zero. -/
def hash (w : List Nat) : Nat :=
  match w with
  | [] => NBUCKETS % NBUCKETS
  | b :: rest => hashAux (NBUCKETS ^^^ ((b <<< 2) % U32)) b 0 rest

/-- The scan loop of `freq::count`: walk the chain comparing the word with
`strcmp`; on the first match return the chain with that entry's count bumped
(`++ep->count` under the entry mutex, transactionally); return `none` when
no entry matches. -/
def countChain (w : List Nat) : List entry → Option (List entry)
  | [] => none
  | e :: es =>
      if e.word = w then some (entry.mk e.word (e.count + 1) :: es)
      else (countChain w es).map (fun ch => e :: ch)

/-- `freq::count`: hash the word, scan bucket `h`; if found, bump that
entry's count; otherwise allocate `entry{1, word, ht[h].entries}` and make
it the new bucket head (the transactional insert at the end of the
function).  Each branch is one atomic table update. -/
def count (t : buckets) (w : List Nat) : buckets :=
  match countChain w (t (hash w)) with
  | some ch => fun i => if i = hash w then ch else t i
  | none => fun i => if i = hash w then entry.mk w 1 :: t (hash w) else t i

/-- The count recorded for `w` in a chain: the `count` field of the first
entry whose word bytes equal `w` (`strcmp(word, ep->word.get()) == 0`). -/
def findCount (w : List Nat) : List entry → Option Int
  | [] => none
  | e :: es => if e.word = w then some e.count else findCount w es

/-- The tokenizing loop of `freq::count_all_words`.  The second argument
models the word buffer: `none` is `ptr == NULL`, and `some (buf, n)` is a
started word with `buf` its bytes in reverse order and `n = ptr - word` the
number of bytes stored (the pointer arithmetic of the C loop).  The check
`ptr < &word[MAXWORD - 1]` is `n < MAXWORD - 1`; when it fails the buffer is
terminated and emitted and `ptr` is reset to NULL, dropping the byte that
triggered the overflow.  The output is the list of words passed to
`count`, in order. -/
def count_all_words_go : List Nat → Option (List Nat × Nat) → List (List Nat)
  | [], none => []
  | [], some (buf, _) => [buf.reverse]
  | c :: cs, none =>
      if isalpha c then count_all_words_go cs (some ([c], 1))
      else count_all_words_go cs none
  | c :: cs, some (buf, n) =>
      if isalpha c then
        if n < MAXWORD - 1 then count_all_words_go cs (some (c :: buf, n + 1))
        else buf.reverse :: count_all_words_go cs none
      else buf.reverse :: count_all_words_go cs none

/-- The sequence of words `freq::count_all_words` extracts from a byte
stream (`ptr = NULL` initially; EOF flushes any in-progress word). -/
def tokenize (input : List Nat) : List (List Nat) :=
  count_all_words_go input none

/-- `freq::count_all_words` on an already-opened file with contents
`input`: the loop calls `count` on each word as soon as it is delimited,
which sequentially is the left fold of `count` over the emitted words. -/
def count_all_words (t : buckets) (input : List Nat) : buckets :=
  (tokenize input).foldl count t

/-- Modelled from the spec: the mixing loop of the reference hash of
section 4.2 — for each subsequent byte at position `p` (1-indexed from the
second byte), XOR the accumulator with
`(byte << (p mod 3)) + (previous_byte << (p mod 3 + 7))`. -/
def hashRefAux : Nat → Nat → Nat → List Nat → Nat
  | h, _, _, [] => h
  | h, prev, p, c :: cs =>
      hashRefAux (h ^^^ ((c <<< (p % 3)) + (prev <<< (p % 3 + 7)))) c (p + 1) cs

/-- Modelled from the spec: the full reference mixing function exactly as
the claim words it — seed with `NBUCKETS` XOR (first byte << 2), run the
mixing loop, after the scan XOR in the TOTAL LENGTH of the word, reduce
modulo `NBUCKETS`.  (The spec presumes a non-empty word.) -/
def hashSpec (w : List Nat) : Nat :=
  match w with
  | [] => 0
  | b :: rest =>
      (hashRefAux (NBUCKETS ^^^ (b <<< 2)) b 1 rest ^^^ (rest.length + 1)) %
        NBUCKETS

/-- The reference mixing function amended to match the code: after the scan
the accumulator is XORed with the number of bytes AFTER the first (the total
length minus one), which is the final value of `len` in `freq::hash`. -/
def hashSpecAmended (w : List Nat) : Nat :=
  match w with
  | [] => 0
  | b :: rest =>
      (hashRefAux (NBUCKETS ^^^ (b <<< 2)) b 1 rest ^^^ rest.length) % NBUCKETS

/-- Modelled from the spec: the tokens of section 4.4 are the maximal runs
of alphabetic bytes (ASCII classification, case preserved), in stream
order, with non-alphabetic runs discarded.  `buf` holds the run in
progress, in reverse order. -/
def runsGo : List Nat → List Nat → List (List Nat)
  | [], [] => []
  | [], b :: bs => [(b :: bs).reverse]
  | c :: cs, buf =>
      if isalpha c then runsGo cs (c :: buf)
      else
        match buf with
        | [] => runsGo cs []
        | b :: bs => (b :: bs).reverse :: runsGo cs []

/-- Modelled from the spec: the maximal alphabetic runs of a byte stream. -/
def maximalRuns (input : List Nat) : List (List Nat) := runsGo input []

/-- The final state of the word buffer after the loop of
`freq::count_all_words` consumes the given bytes (the same recursion as
`count_all_words_go`, keeping the buffer instead of the emitted words). -/
def goAcc : List Nat → Option (List Nat × Nat) → Option (List Nat × Nat)
  | [], acc => acc
  | c :: cs, none =>
      if isalpha c then goAcc cs (some ([c], 1)) else goAcc cs none
  | c :: cs, some (buf, n) =>
      if isalpha c then
        if n < MAXWORD - 1 then goAcc cs (some (c :: buf, n + 1))
        else goAcc cs none
      else goAcc cs none

/-- The words emitted by the loop of `freq::count_all_words` while
consuming the given bytes, excluding the end-of-stream flush. -/
def emitted : List Nat → Option (List Nat × Nat) → List (List Nat)
  | [], _ => []
  | c :: cs, none =>
      if isalpha c then emitted cs (some ([c], 1)) else emitted cs none
  | c :: cs, some (buf, n) =>
      if isalpha c then
        if n < MAXWORD - 1 then emitted cs (some (c :: buf, n + 1))
        else buf.reverse :: emitted cs none
      else buf.reverse :: emitted cs none

/-- The end-of-stream flush of `freq::count_all_words` ("handle the last
word"): the in-progress word, if any. -/
def flushAcc : Option (List Nat × Nat) → List (List Nat)
  | none => []
  | some (buf, _) => [buf.reverse]

/-- One externally visible step of `main`, in program order. -/
inductive Effect where
  | usageMsg : Effect
  | exitProc : Nat → Effect
  | regionOpen : String → Effect
  | spawnWorker : String → Effect
  | joinAll : Effect
  | closeRegion : Effect
deriving DecidableEq

/-- The effect trace of `main` on the argument vector `argv` (including the
program name, so `argv.length` is `argc`): the code checks `argc < 3`
first, printing the usage line to `std::cerr` and calling `exit(1)` before
any region access; otherwise it opens the pool at `argv[1]`, lazily
initializes the bucket array, spawns one worker thread per remaining
argument, joins them, closes the pool and exits 0. -/
def mainTrace (argv : List String) : List Effect :=
  if argv.length < 3 then [Effect.usageMsg, Effect.exitProc 1]
  else
    Effect.regionOpen (argv.getD 1 "") ::
      ((argv.drop 2).map Effect.spawnWorker ++
        [Effect.joinAll, Effect.closeRegion, Effect.exitProc 0])

/-- A worker's input file: `none` models a file that `fopen` cannot open
(on which `count_all_words` throws `std::runtime_error`), `some bytes` a
readable file with those contents. -/
abbrev FileInput := Option (List Nat)

/-- The observable outcome of one run of the spawned workers: whether the
process exited normally with status 0, and which workers ran their files
to completion (indexed by position in the file list). -/
structure RunResult where
  exitZero : Bool
  processed : Nat → Bool

/-- Modelled from the code and the C++ thread rules: `main` spawns one
`std::thread` per input file running `freq::count_all_words`, which throws
`std::runtime_error` when `fopen` fails; nothing in the program catches
the exception, and an exception escaping a thread's start function calls
`std::terminate`, which aborts the whole process (an abnormal, non-zero
exit) without control ever returning to the driver's join loop.  When
every file opens, every worker runs its file to completion, `main` joins
them all, closes the pool and exits 0.  Which other workers happen to have
finished before an abort is scheduling-dependent, so in the terminate case
the `processed` flags of the non-failing workers are arbitrary; a failing
worker never completes its own file. -/
inductive mainBehavior : List FileInput → RunResult → Prop
  | allOpen (files : List FileInput) (h : ¬ none ∈ files) :
      mainBehavior files ⟨true, fun i => decide (i < files.length)⟩
  | terminate (files : List FileInput) (h : none ∈ files)
      (processed : Nat → Bool)
      (hfail : ∀ i, i < files.length → files.getD i (some []) = none →
        processed i = false) :
      mainBehavior files ⟨false, processed⟩

lemma shift_mix_lt {c prev m : Nat} (hc : c < 256) (hp : prev < 256)
    (hm : m < 3) : (c <<< m) + (prev <<< (m + 7)) < U32 := by
  rw [Nat.shiftLeft_eq, Nat.shiftLeft_eq]
  have h1 : 2 ^ m ≤ 4 := by
    calc 2 ^ m ≤ 2 ^ 2 := Nat.pow_le_pow_right (by norm_num) (by omega)
    _ = 4 := by norm_num
  have h2 : 2 ^ (m + 7) ≤ 512 := by
    calc 2 ^ (m + 7) ≤ 2 ^ 9 := Nat.pow_le_pow_right (by norm_num) (by omega)
    _ = 512 := by norm_num
  have h3 : c * 2 ^ m ≤ 255 * 4 :=
    Nat.mul_le_mul (by omega) h1
  have h4 : prev * 2 ^ (m + 7) ≤ 255 * 512 :=
    Nat.mul_le_mul (by omega) h2
  have : U32 = 4294967296 := by norm_num [U32]
  omega

/-- The mixing loop of `freq::hash` agrees with the reference loop followed
by the final XOR of `len` (which ends at `len₀ + cs.length`), provided the
bytes are genuine bytes and the length stays below `2 ^ 32` so that none of
the `unsigned` reductions wrap. -/
lemma hashAux_eq_ref (cs : List Nat) : ∀ (h prev len : Nat),
    prev < 256 → (∀ c ∈ cs, c < 256) → len + cs.length + 1 < U32 →
    hashAux h prev len cs =
      (hashRefAux h prev (len + 1) cs ^^^ (len + cs.length)) % NBUCKETS := by
  induction cs with
  | nil => intro h prev len _ _ _; simp [hashAux, hashRefAux]
  | cons c cs ih =>
      intro h prev len hprev hcs hlen
      have hc : c < 256 := hcs c (by simp)
      have hcs' : ∀ x ∈ cs, x < 256 := fun x hx => hcs x (by simp [hx])
      have hl1 : (len + 1) % U32 = len + 1 :=
        Nat.mod_eq_of_lt (by simp at hlen ⊢; omega)
      have hmix : ((c <<< ((len + 1) % 3)) + (prev <<< ((len + 1) % 3 + 7))) %
          U32 = (c <<< ((len + 1) % 3)) + (prev <<< ((len + 1) % 3 + 7)) :=
        Nat.mod_eq_of_lt (shift_mix_lt hc hprev (Nat.mod_lt _ (by norm_num)))
      show hashAux
          (h ^^^ (((c <<< ((len + 1) % U32 % 3)) +
            (prev <<< ((len + 1) % U32 % 3 + 7))) % U32)) c ((len + 1) % U32)
          cs = _
      rw [hl1, hmix, ih _ c (len + 1) hc hcs' (by simp at hlen ⊢; omega)]
      have harith : len + 1 + cs.length = len + (c :: cs).length := by
        simp; omega
      rw [harith]
      rfl

/-- Claim C2, counterexample: on the two-byte word "ab" the code's hash
differs from the spec's reference mixing function, because `freq::hash`
XORs in `len`, which ends at the number of bytes after the first (1 for
"ab"), not the total length of the word (2). -/
theorem claim_C2_cex : hash [97, 98] ≠ hashSpec [97, 98] := by decide

/-- Claim C2 (amended): for every non-empty word of genuine bytes (of any
length the program can produce), `freq::hash` equals the reference mixing
function amended so that the final XOR uses the total length minus one (the
number of bytes after the first), and the result lies in `[0, NBUCKETS)`.
Equal words trivially hash to the equal bucket index since `hash` is a pure
function of the word bytes. -/
theorem claim_C2 (b : Nat) (rest : List Nat) (hbytes : ∀ c ∈ b :: rest, c < 256)
    (hlen : (b :: rest).length < U32) :
    hash (b :: rest) = hashSpecAmended (b :: rest) ∧
      hash (b :: rest) < NBUCKETS := by
  have hb : b < 256 := hbytes b (by simp)
  have hrest : ∀ c ∈ rest, c < 256 := fun c hc => hbytes c (by simp [hc])
  have hshift : (b <<< 2) % U32 = b <<< 2 := by
    rw [Nat.shiftLeft_eq]
    refine Nat.mod_eq_of_lt ?_
    have : b * 2 ^ 2 ≤ 255 * 4 := Nat.mul_le_mul (by omega) (by norm_num)
    have : U32 = 4294967296 := by norm_num [U32]
    omega
  have heq : hash (b :: rest) = hashSpecAmended (b :: rest) := by
    show hashAux (NBUCKETS ^^^ ((b <<< 2) % U32)) b 0 rest = _
    rw [hshift,
      hashAux_eq_ref rest _ b 0 hb hrest (by simp at hlen ⊢; omega)]
    show (hashRefAux _ b 1 rest ^^^ (0 + rest.length)) % NBUCKETS = _
    rw [Nat.zero_add]
    rfl
  refine ⟨heq, ?_⟩
  rw [heq]
  show (hashRefAux _ b 1 rest ^^^ rest.length) % NBUCKETS < NBUCKETS
  exact Nat.mod_lt _ (by norm_num [NBUCKETS])

/-- Witness for claim C2 at the concrete word "ab". -/
theorem claim_C2_witness :
    hash [97, 98] = hashSpecAmended [97, 98] ∧ hash [97, 98] < NBUCKETS :=
  claim_C2 97 [98] (by decide) (by decide)

lemma countChain_eq_none (w : List Nat) :
    ∀ ch, countChain w ch = none ↔ findCount w ch = none := by
  intro ch
  induction ch with
  | nil => simp [countChain, findCount]
  | cons e es ih =>
      by_cases he : e.word = w <;> simp [countChain, findCount, he, ih]

lemma countChain_some_find (w : List Nat) :
    ∀ ch ch', countChain w ch = some ch' →
      ∃ c, findCount w ch = some c ∧ findCount w ch' = some (c + 1) := by
  intro ch
  induction ch with
  | nil => simp [countChain]
  | cons e es ih =>
      intro ch' h
      by_cases he : e.word = w
      · simp only [countChain, if_pos he, Option.some.injEq] at h
        exact ⟨e.count, by simp [findCount, he], by
          rw [← h]; simp [findCount, he]⟩
      · simp only [countChain, if_neg he, Option.map_eq_some'] at h
        obtain ⟨es', hes, rfl⟩ := h
        obtain ⟨c, h1, h2⟩ := ih es' hes
        exact ⟨c, by simp [findCount, he, h1], by simp [findCount, he, h2]⟩

lemma countChain_forall2 (w : List Nat) :
    ∀ ch ch', countChain w ch = some ch' →
      List.Forall₂ (fun o n => o.word = n.word ∧ o.count ≤ n.count) ch ch' := by
  intro ch
  induction ch with
  | nil => simp [countChain]
  | cons e es ih =>
      intro ch' h
      by_cases he : e.word = w
      · simp only [countChain, if_pos he, Option.some.injEq] at h
        rw [← h]
        exact List.Forall₂.cons ⟨rfl, by change e.count ≤ e.count + 1; omega⟩
          (List.forall₂_same.mpr (fun x _ => ⟨rfl, le_refl _⟩))
      · simp only [countChain, if_neg he, Option.map_eq_some'] at h
        obtain ⟨es', hes, rfl⟩ := h
        exact List.Forall₂.cons ⟨rfl, le_refl _⟩ (ih es' hes)

lemma countChain_pos (w : List Nat) :
    ∀ ch ch', countChain w ch = some ch' → (∀ e ∈ ch, 1 ≤ e.count) →
      ∀ e ∈ ch', 1 ≤ e.count := by
  intro ch
  induction ch with
  | nil => simp [countChain]
  | cons e es ih =>
      intro ch' h hpos
      by_cases he : e.word = w
      · simp only [countChain, if_pos he, Option.some.injEq] at h
        rw [← h]
        intro x hx
        rcases List.mem_cons.mp hx with hx | hx
        · have := hpos e (by simp)
          simp [hx]; omega
        · exact hpos x (by simp [hx])
      · simp only [countChain, if_neg he, Option.map_eq_some'] at h
        obtain ⟨es', hes, rfl⟩ := h
        intro x hx
        rcases List.mem_cons.mp hx with hx | hx
        · exact hx ▸ hpos e (by simp)
        · exact ih es' hes (fun y hy => hpos y (by simp [hy])) x hx

lemma countChain_set (w : List Nat) :
    ∀ ch ch', countChain w ch = some ch' →
      ∃ k e, ch.get? k = some e ∧ e.word = w ∧
        ch' = ch.set k (entry.mk e.word (e.count + 1)) := by
  intro ch
  induction ch with
  | nil => simp [countChain]
  | cons e es ih =>
      intro ch' h
      by_cases he : e.word = w
      · simp only [countChain, if_pos he, Option.some.injEq] at h
        exact ⟨0, e, rfl, he, h.symm⟩
      · simp only [countChain, if_neg he, Option.map_eq_some'] at h
        obtain ⟨es', hes, rfl⟩ := h
        obtain ⟨k, e0, h1, h2, h3⟩ := ih es' hes
        exact ⟨k + 1, e0, h1, h2, by rw [h3]; rfl⟩

/-- Claim C1: after `freq::count` returns, the bucket at `hash word`
contains an entry whose word bytes equal `word` and whose count is one more
than at call start (an absent word counting as zero); in the not-found case
the new entry carries count 1 and the word bytes, its next pointer is the
bucket head at insert time and the head becomes the new entry — here, the
chain becomes the new entry consed onto the old chain — by the single
atomic update of the insert transaction. -/
theorem claim_C1 (t : buckets) (w : List Nat) :
    findCount w (count t w (hash w)) =
      some ((findCount w (t (hash w))).getD 0 + 1) ∧
    (findCount w (t (hash w)) = none →
      count t w (hash w) = entry.mk w 1 :: t (hash w)) := by
  unfold count
  cases hc : countChain w (t (hash w)) with
  | none =>
      have hf : findCount w (t (hash w)) = none := (countChain_eq_none w _).mp hc
      refine ⟨?_, fun _ => by simp⟩
      simp [hf, findCount]
  | some ch =>
      obtain ⟨c, h1, h2⟩ := countChain_some_find w _ _ hc
      refine ⟨by simp [h1, h2], fun hf => ?_⟩
      rw [hf] at h1
      cases h1

/-- Witness for claim C1: inserting "a" into the empty table creates the
bucket chain `[⟨"a", 1⟩]`. -/
theorem claim_C1_witness :
    count (fun _ => []) [97] (hash [97]) = [entry.mk [97] 1] :=
  (claim_C1 (fun _ => []) [97]).2 rfl

/-- Claim C5: one `freq::count` call preserves the table invariant — in
every bucket the old chain survives as the (pointwise) tail of the new
chain with every entry's word bytes unchanged and its count not decreased
(entries are never destroyed, moved or rewritten; at most a new entry is
placed at the head), and if every count was at least 1 before the call it
still is afterwards. -/
theorem claim_C5 (t : buckets) (w : List Nat) (i : Nat) :
    (∃ pre post, count t w i = pre ++ post ∧
      List.Forall₂ (fun o n => o.word = n.word ∧ o.count ≤ n.count)
        (t i) post) ∧
    ((∀ e ∈ t i, 1 ≤ e.count) → ∀ e ∈ count t w i, 1 ≤ e.count) := by
  have hrefl : List.Forall₂ (fun o n : entry => o.word = n.word ∧
      o.count ≤ n.count) (t i) (t i) :=
    List.forall₂_same.mpr (fun x _ => ⟨rfl, le_refl _⟩)
  unfold count
  cases hc : countChain w (t (hash w)) with
  | none =>
      by_cases hi : i = hash w
      · subst hi
        constructor
        · exact ⟨[entry.mk w 1], t (hash w), by simp, hrefl⟩
        · intro hall e he
          simp only [if_pos rfl] at he
          rcases List.mem_cons.mp he with rfl | he
          · norm_num
          · exact hall e he
      · constructor
        · exact ⟨[], t i, by simp [hi], hrefl⟩
        · intro hall e he
          simp only [if_neg hi] at he
          exact hall e he
  | some ch =>
      by_cases hi : i = hash w
      · subst hi
        constructor
        · exact ⟨[], ch, by simp, countChain_forall2 w _ _ hc⟩
        · intro hall e he
          simp only [if_pos rfl] at he
          exact countChain_pos w _ _ hc hall e he
      · constructor
        · exact ⟨[], t i, by simp [hi], hrefl⟩
        · intro hall e he
          simp only [if_neg hi] at he
          exact hall e he

/-- Witness for claim C5: counting "a" into a table whose chains all hold
`⟨"b", 1⟩` keeps every count at least 1 in the updated bucket. -/
theorem claim_C5_witness :
    (∀ e ∈ (fun _ => [entry.mk [98] 1] : buckets) (hash [97]), 1 ≤ e.count) ∧
    (∀ e ∈ count (fun _ => [entry.mk [98] 1]) [97] (hash [97]),
      1 ≤ e.count) :=
  ⟨by decide, (claim_C5 (fun _ => [entry.mk [98] 1]) [97] (hash [97])).2
    (by decide)⟩

/-- Claim C6: when an entry for the word already exists in the bucket's
chain, `freq::count` makes no structural mutation — every other bucket is
untouched, and the bucket at `hash word` keeps its head, its chain order
and every entry's word bytes and count except that the matched entry (at
some position `k`) has its count incremented: the new chain is exactly the
old chain with position `k` overwritten by the same word and count + 1. -/
theorem claim_C6 (t : buckets) (w : List Nat) (ch' : List entry)
    (h : countChain w (t (hash w)) = some ch') :
    (∀ i, i ≠ hash w → count t w i = t i) ∧
    ∃ k e, (t (hash w)).get? k = some e ∧ e.word = w ∧
      count t w (hash w) = (t (hash w)).set k (entry.mk e.word (e.count + 1)) := by
  constructor
  · intro i hi
    unfold count
    rw [h]
    simp [hi]
  · obtain ⟨k, e, h1, h2, h3⟩ := countChain_set w _ _ h
    refine ⟨k, e, h1, h2, ?_⟩
    unfold count
    rw [h]
    simp [h3]

/-- Witness for claim C6 on a table whose bucket for "a" holds exactly
`⟨"a", 5⟩`. -/
theorem claim_C6_witness :
    (∀ i, i ≠ hash [97] →
      count (fun _ => [entry.mk [97] 5]) [97] i =
        (fun _ => [entry.mk [97] 5] : buckets) i) ∧
    ∃ k e, ((fun _ => [entry.mk [97] 5] : buckets) (hash [97])).get? k =
        some e ∧ e.word = [97] ∧
      count (fun _ => [entry.mk [97] 5]) [97] (hash [97]) =
        ((fun _ => [entry.mk [97] 5] : buckets) (hash [97])).set k
          (entry.mk e.word (e.count + 1)) :=
  claim_C6 (fun _ => [entry.mk [97] 5]) [97] [entry.mk [97] 6] (by decide)

lemma runs_first_le (input : List Nat) : ∀ (b : Nat) (bs : List Nat),
    ∃ r, r ∈ runsGo input (b :: bs) ∧ (b :: bs).length ≤ r.length := by
  induction input with
  | nil =>
      intro b bs
      exact ⟨(b :: bs).reverse, by simp [runsGo], by simp⟩
  | cons c cs ih =>
      intro b bs
      by_cases ha : isalpha c
      · obtain ⟨r, hr, hlen⟩ := ih c (b :: bs)
        refine ⟨r, ?_, ?_⟩
        · simp only [runsGo, if_pos ha]
          exact hr
        · simp at hlen ⊢
          omega
      · exact ⟨(b :: bs).reverse, by simp [runsGo, if_neg ha], by simp⟩

lemma go_eq_runs (input : List Nat) : ∀ buf : List Nat,
    (∀ r ∈ runsGo input buf, r.length ≤ MAXWORD - 1) →
    count_all_words_go input
      (match buf with
       | [] => none
       | b :: bs => some (b :: bs, (b :: bs).length)) =
      runsGo input buf := by
  induction input with
  | nil =>
      intro buf _
      match buf with
      | [] => rfl
      | b :: bs => rfl
  | cons c cs ih =>
      intro buf hruns
      by_cases ha : isalpha c
      · match buf with
        | [] =>
            show count_all_words_go (c :: cs) none = runsGo (c :: cs) []
            have hstep : runsGo (c :: cs) [] = runsGo cs [c] := by
              simp [runsGo, ha]
            rw [hstep]
            have := ih [c] (by rw [← hstep]; exact hruns)
            simpa [count_all_words_go, ha] using this
        | b :: bs =>
            have hstep : runsGo (c :: cs) (b :: bs) = runsGo cs (c :: b :: bs) := by
              simp [runsGo, ha]
            obtain ⟨r, hr, hrlen⟩ := runs_first_le cs c (b :: bs)
            have hrbound : r.length ≤ MAXWORD - 1 := by
              refine hruns r ?_
              rw [hstep]
              exact hr
            have hlt : (b :: bs).length < MAXWORD - 1 := by
              simp only [List.length_cons] at hrlen ⊢
              omega
            have hlt' : bs.length + 1 < MAXWORD - 1 := by
              simpa using hlt
            show count_all_words_go (c :: cs)
              (some (b :: bs, (b :: bs).length)) = runsGo (c :: cs) (b :: bs)
            rw [hstep]
            have := ih (c :: b :: bs) (by rw [← hstep]; exact hruns)
            simp only [List.length_cons] at this ⊢
            simpa [count_all_words_go, ha, hlt'] using this
      · match buf with
        | [] =>
            show count_all_words_go (c :: cs) none = runsGo (c :: cs) []
            have hstep : runsGo (c :: cs) [] = runsGo cs [] := by
              simp [runsGo, ha]
            rw [hstep]
            have := ih [] (by rw [← hstep]; exact hruns)
            simpa [count_all_words_go, ha] using this
        | b :: bs =>
            show count_all_words_go (c :: cs)
              (some (b :: bs, (b :: bs).length)) = runsGo (c :: cs) (b :: bs)
            have hstep : runsGo (c :: cs) (b :: bs) =
                (b :: bs).reverse :: runsGo cs [] := by
              simp [runsGo, ha]
            rw [hstep]
            have := ih [] (by
              intro r hr
              refine hruns r ?_
              rw [hstep]
              simp [hr])
            simpa [count_all_words_go, ha] using this

/-- Claim C7: on any stream whose maximal alphabetic runs are all shorter
than the maximum token length `MAXWORD`, the tokenizing loop of
`freq::count_all_words` emits exactly the maximal runs of alphabetic bytes,
in stream order, discarding the non-alphabetic separators; end-of-stream
flushes the in-progress word; in particular empty and punctuation-only
inputs yield zero tokens and "Hello, World!" yields exactly
["Hello", "World"]. -/
theorem claim_C7 (input : List Nat)
    (h : ∀ r ∈ maximalRuns input, r.length < MAXWORD) :
    tokenize input = maximalRuns input := by
  have := go_eq_runs input [] (by
    intro r hr
    have := h r hr
    simp [MAXWORD] at this ⊢
    omega)
  exact this

/-- Witness for claim C7: the bytes of "Hello, World!" tokenize to exactly
the bytes of "Hello" and "World". -/
theorem claim_C7_witness :
    tokenize [72, 101, 108, 108, 111, 44, 32, 87, 111, 114, 108, 100, 33] =
      [[72, 101, 108, 108, 111], [87, 111, 114, 108, 100]] :=
  (claim_C7 [72, 101, 108, 108, 111, 44, 32, 87, 111, 114, 108, 100, 33]
    (by decide)).trans (by decide)

lemma go_wf (input : List Nat) : ∀ acc : Option (List Nat × Nat),
    (∀ buf n, acc = some (buf, n) → buf ≠ [] ∧ n = buf.length ∧
      buf.length ≤ MAXWORD - 1 ∧ ∀ c ∈ buf, isalpha c = true) →
    ∀ tok ∈ count_all_words_go input acc,
      tok ≠ [] ∧ tok.length ≤ MAXWORD - 1 ∧ ∀ c ∈ tok, isalpha c = true := by
  induction input with
  | nil =>
      intro acc hacc tok htok
      match acc with
      | none => simp [count_all_words_go] at htok
      | some (buf, n) =>
          obtain ⟨h1, _, h3, h4⟩ := hacc buf n rfl
          simp [count_all_words_go] at htok
          subst htok
          refine ⟨by simpa using h1, by simpa using h3, ?_⟩
          intro c hc
          exact h4 c (List.mem_reverse.mp hc)
  | cons c cs ih =>
      intro acc hacc tok htok
      match acc with
      | none =>
          by_cases ha : isalpha c
          · simp only [count_all_words_go, ha, if_true] at htok
            refine ih (some ([c], 1)) ?_ tok htok
            intro buf n h
            cases h
            exact ⟨by simp, by simp, by simp [MAXWORD], by simp [ha]⟩
          · simp only [count_all_words_go, ha, if_false] at htok
            exact ih none (by simp) tok htok
      | some (buf, n) =>
          obtain ⟨h1, h2, h3, h4⟩ := hacc buf n rfl
          by_cases ha : isalpha c
          · by_cases hn : n < MAXWORD - 1
            · simp only [count_all_words_go, ha, if_true, hn] at htok
              refine ih (some (c :: buf, n + 1)) ?_ tok htok
              intro buf' n' h
              cases h
              refine ⟨by simp, by simp [h2], by simp; omega, ?_⟩
              intro x hx
              rcases List.mem_cons.mp hx with rfl | hx
              · exact ha
              · exact h4 x hx
            · simp only [count_all_words_go, ha, if_true, hn, if_false] at htok
              rcases List.mem_cons.mp htok with rfl | htok
              · refine ⟨by simpa using h1, by simpa using h3, ?_⟩
                intro x hx
                exact h4 x (List.mem_reverse.mp hx)
              · exact ih none (by simp) tok htok
          · simp only [count_all_words_go, ha, if_false] at htok
            rcases List.mem_cons.mp htok with rfl | htok
            · refine ⟨by simpa using h1, by simpa using h3, ?_⟩
              intro x hx
              exact h4 x (List.mem_reverse.mp hx)
            · exact ih none (by simp) tok htok

/-- Claim C10: every word the tokenizing loop passes to `count` is a
non-empty string of at most `MAXWORD - 1 = 8191` alphabetic bytes (hence
NUL-free and NUL-terminated in the `word` buffer), so `freq::hash` never
reads past the terminator and `strcmp` in `freq::count` compares
well-formed strings. -/
theorem claim_C10 (input : List Nat) (tok : List Nat)
    (htok : tok ∈ tokenize input) :
    tok ≠ [] ∧ tok.length ≤ MAXWORD - 1 ∧ ∀ c ∈ tok, isalpha c = true :=
  go_wf input none (by simp) tok htok

/-- Witness for claim C10: the token "ab" of the stream "ab." is non-empty,
within bounds and alphabetic. -/
theorem claim_C10_witness :
    [97, 98] ≠ ([] : List Nat) ∧ [97, 98].length ≤ MAXWORD - 1 ∧
      ∀ c ∈ [97, 98], isalpha c = true :=
  claim_C10 [97, 98, 46] [97, 98] (by decide)

lemma go_flush (input : List Nat) : ∀ acc,
    count_all_words_go input acc =
      emitted input acc ++ flushAcc (goAcc input acc) := by
  induction input with
  | nil =>
      intro acc
      match acc with
      | none => rfl
      | some (buf, n) => rfl
  | cons c cs ih =>
      intro acc
      match acc with
      | none =>
          by_cases ha : isalpha c <;>
            simp [count_all_words_go, emitted, goAcc, ha, ih]
      | some (buf, n) =>
          by_cases ha : isalpha c
          · by_cases hn : n < MAXWORD - 1 <;>
              simp [count_all_words_go, emitted, goAcc, ha, hn, ih]
          · simp [count_all_words_go, emitted, goAcc, ha, ih]

lemma go_append (ys : List Nat) : ∀ (xs : List Nat) (acc : Option (List Nat × Nat)),
    count_all_words_go (xs ++ ys) acc =
      emitted xs acc ++ count_all_words_go ys (goAcc xs acc) := by
  intro xs
  induction xs with
  | nil => intro acc; simp [emitted, goAcc]
  | cons c cs ih =>
      intro acc
      match acc with
      | none =>
          by_cases ha : isalpha c <;>
            simp [count_all_words_go, emitted, goAcc, ha, ih]
      | some (buf, n) =>
          by_cases ha : isalpha c
          · by_cases hn : n < MAXWORD - 1 <;>
              simp [count_all_words_go, emitted, goAcc, ha, hn, ih]
          · simp [count_all_words_go, emitted, goAcc, ha, ih]

/-- When the tokenizer carries no in-progress word at a split point, the
tokens of the concatenation are the tokens of the halves, concatenated. -/
lemma tokenize_append (h1 h2 : List Nat) (h : goAcc h1 none = none) :
    tokenize (h1 ++ h2) = tokenize h1 ++ tokenize h2 := by
  unfold tokenize
  rw [go_append h2 h1 none, h, go_flush h1 none, h]
  simp [flushAcc]

/-- Claim C4, counterexample: the text "ab" split after its first byte and
counted through two sequential `count_all_words` calls does not yield the
same per-word totals as counting it as one stream — the one-stream run
records one occurrence of "ab", the split run records none (it records "a"
and "b" instead). -/
theorem claim_C4_cex :
    ¬ (findCount [97, 98]
        (count_all_words (fun _ => []) ([97] ++ [98]) (hash [97, 98])) =
      findCount [97, 98]
        (count_all_words (count_all_words (fun _ => []) [97]) [98]
          (hash [97, 98]))) := by
  decide

/-- Claim C4 (amended): for any split point at which the tokenizer carries
no in-progress word (for instance any split at a non-alphabetic byte or at
the ends of the text), counting the text as one stream and counting the two
halves through two sequential `count_all_words` calls against the same
table yield identical per-word totals. -/
theorem claim_C4 (t : buckets) (h1 h2 : List Nat)
    (hsplit : goAcc h1 none = none) (w : List Nat) :
    findCount w (count_all_words t (h1 ++ h2) (hash w)) =
      findCount w
        (count_all_words (count_all_words t h1) h2 (hash w)) := by
  unfold count_all_words
  rw [tokenize_append h1 h2 hsplit, List.foldl_append]

/-- Witness for claim C4: splitting "a b" after its separator byte gives
the same total for "a". -/
theorem claim_C4_witness :
    findCount [97]
      (count_all_words (fun _ => []) ([97, 32] ++ [98]) (hash [97])) =
      findCount [97]
        (count_all_words (count_all_words (fun _ => []) [97, 32]) [98]
          (hash [97])) :=
  claim_C4 (fun _ => []) [97, 32] [98] (by decide) [97]

lemma go_replicate_fill (a : Nat) (ha : isalpha a = true) :
    ∀ (m : Nat) (buf : List Nat) (n : Nat), m + n ≤ MAXWORD - 1 →
      count_all_words_go (List.replicate m a) (some (buf, n)) =
        [(List.replicate m a ++ buf).reverse] := by
  intro m
  induction m with
  | zero => intro buf n _; simp [count_all_words_go]
  | succ m ih =>
      intro buf n hmn
      have hn : n < MAXWORD - 1 := by omega
      rw [List.replicate_succ]
      show count_all_words_go (a :: List.replicate m a) (some (buf, n)) = _
      simp only [count_all_words_go, ha, if_true, hn, if_pos]
      rw [ih (a :: buf) (n + 1) (by omega)]
      rw [List.append_cons, ← List.replicate_succ' m a, List.replicate_succ,
        List.cons_append]

lemma go_replicate_cap (a : Nat) (ha : isalpha a = true) :
    ∀ (k m : Nat) (buf : List Nat) (n : Nat),
      n + k = MAXWORD - 1 → k < m →
      count_all_words_go (List.replicate m a) (some (buf, n)) =
        (List.replicate k a ++ buf).reverse ::
          count_all_words_go (List.replicate (m - k - 1) a) none := by
  intro k
  induction k with
  | zero =>
      intro m buf n hn hm
      obtain ⟨m', rfl⟩ : ∃ m', m = m' + 1 := ⟨m - 1, by omega⟩
      have hnot : ¬ (n < MAXWORD - 1) := by omega
      rw [List.replicate_succ]
      show count_all_words_go (a :: List.replicate m' a) (some (buf, n)) = _
      simp only [count_all_words_go, ha, if_true, hnot, if_false]
      have harith : m' + 1 - 0 - 1 = m' := by omega
      rw [harith, List.replicate_zero, List.nil_append]
  | succ k ih =>
      intro m buf n hn hm
      obtain ⟨m', rfl⟩ : ∃ m', m = m' + 1 := ⟨m - 1, by omega⟩
      have hlt : n < MAXWORD - 1 := by omega
      rw [List.replicate_succ]
      show count_all_words_go (a :: List.replicate m' a) (some (buf, n)) = _
      simp only [count_all_words_go, ha, if_true, hlt, if_pos]
      rw [ih m' (a :: buf) (n + 1) (by omega) (by omega)]
      have harith : m' - k - 1 = m' + 1 - (k + 1) - 1 := by omega
      rw [harith, List.append_cons, ← List.replicate_succ' k a,
        List.replicate_succ, List.cons_append]

lemma go_cons_none_alpha (c : Nat) (cs : List Nat) (hc : isalpha c = true) :
    count_all_words_go (c :: cs) none = count_all_words_go cs (some ([c], 1)) := by
  simp [count_all_words_go, hc]

lemma tokenize_replicate_9000 :
    tokenize (List.replicate 9000 97) =
      [List.replicate 8191 97, List.replicate 808 97] := by
  have ha : isalpha 97 = true := by decide
  unfold tokenize
  rw [show (9000 : Nat) = 8999 + 1 from by norm_num, List.replicate_succ]
  rw [go_cons_none_alpha 97 (List.replicate 8999 97) ha]
  rw [go_replicate_cap 97 ha 8190 8999 [97] 1 (by norm_num [MAXWORD])
    (by norm_num)]
  have e1 : count_all_words_go (List.replicate 808 97) none =
      [List.replicate 808 97] := by
    conv_lhs => rw [show List.replicate (808 : Nat) 97 =
      97 :: List.replicate 807 97 from List.replicate_succ 97 807]
    rw [go_cons_none_alpha 97 (List.replicate 807 97) ha,
      go_replicate_fill 97 ha 807 [97] 1 (by norm_num [MAXWORD]),
      ← List.replicate_succ' 807 97]
    rw [List.reverse_replicate]
  have e2 : List.replicate (8190 : Nat) 97 ++ [97] = List.replicate 8191 97 := by
    rw [← List.replicate_succ' 8190 97]
  rw [show (8999 - 8190 - 1 : Nat) = 808 from by norm_num, e1, e2,
    List.reverse_replicate]

/-- Claim C3, counterexample: a run of 9000 consecutive alphabetic bytes
does NOT produce tokens of lengths 8192 and 808 — the in-progress word is
emitted when the buffer holds `MAXWORD - 1 = 8191` bytes (the check is
`ptr < &word[MAXWORD - 1]`, reserving one byte for the terminator), and the
alphabetic byte that triggered the overflow is dropped. -/
theorem claim_C3_cex :
    ¬ ((tokenize (List.replicate 9000 97)).map List.length = [8192, 808]) := by
  rw [tokenize_replicate_9000]
  simp only [List.map_cons, List.map_nil, List.length_replicate]
  decide

/-- Claim C3 (amended): when an in-progress word reaches 8191 bytes it is
emitted immediately as a token of length 8191, the alphabetic byte that
triggered the overflow is dropped, and accumulation restarts with the
following alphabetic byte: a run of 9000 consecutive 'a' bytes produces
exactly two tokens, of lengths 8191 and 808 (8999 of the 9000 bytes; the
8192nd is dropped). -/
theorem claim_C3 :
    tokenize (List.replicate 9000 97) =
      [List.replicate 8191 97, List.replicate 808 97] ∧
    (tokenize (List.replicate 9000 97)).map List.length = [8191, 808] := by
  refine ⟨tokenize_replicate_9000, ?_⟩
  rw [tokenize_replicate_9000]
  simp only [List.map_cons, List.map_nil, List.length_replicate]

/-- Claim C9: invoked with fewer than two operands (`argc < 3`), the
program prints the usage message to the error stream and exits with status
1, and its trace contains no region access and no successful exit. -/
theorem claim_C9 (argv : List String) (h : argv.length < 3) :
    mainTrace argv = [Effect.usageMsg, Effect.exitProc 1] ∧
    (∀ p, Effect.regionOpen p ∉ mainTrace argv) ∧
    Effect.exitProc 0 ∉ mainTrace argv := by
  have ht : mainTrace argv = [Effect.usageMsg, Effect.exitProc 1] := by
    simp [mainTrace, h]
  refine ⟨ht, fun p => ?_, ?_⟩ <;> rw [ht] <;> simp

/-- Witness for claim C9: a run with only the region path and no word
file. -/
theorem claim_C9_witness :
    mainTrace ["freq", "pool"] = [Effect.usageMsg, Effect.exitProc 1] ∧
    (∀ p, Effect.regionOpen p ∉ mainTrace ["freq", "pool"]) ∧
    Effect.exitProc 0 ∉ mainTrace ["freq", "pool"] :=
  claim_C9 ["freq", "pool"] (by decide)

/-- Claim C8, counterexample: with an unopenable first file and an openable
second file, a run is possible in which the process aborts (non-zero exit)
while the second, openable input was never processed — the worker's
exception escapes its `std::thread` and `std::terminate` kills the whole
process, so the driver does not join the remaining workers and the other
inputs are not guaranteed to be fully processed. -/
theorem claim_C8_cex :
    ∃ r : RunResult, mainBehavior [none, some [97]] r ∧
      r.exitZero = false ∧ r.processed 1 = false :=
  ⟨⟨false, fun _ => false⟩,
    mainBehavior.terminate _ (by simp) _ (fun _ _ _ => rfl), rfl, rfl⟩

/-- Claim C8 (amended): a file-open failure is never silently skipped —
the process exits with status 0 exactly when every input file opens; any
open failure makes the whole run end abnormally (non-zero), but it does so
by `std::terminate` rather than by propagating to the driver, and the
remaining workers are not joined, so other inputs may be left
unprocessed. -/
theorem claim_C8 (files : List FileInput) (r : RunResult)
    (h : mainBehavior files r) : r.exitZero = true ↔ ¬ none ∈ files := by
  cases h with
  | allOpen h => simpa using h
  | terminate h processed hfail => simpa using h

/-- Witness for claim C8: the aborted run of the counterexample exits
abnormally because its first file cannot be opened. -/
theorem claim_C8_witness :
    ((⟨false, fun _ => false⟩ : RunResult).exitZero = true ↔
      ¬ none ∈ ([none, some [97]] : List FileInput)) :=
  claim_C8 [none, some [97]] ⟨false, fun _ => false⟩
    (mainBehavior.terminate _ (by simp) _ (fun _ _ _ => rfl))

end Freq
